import Mathlib

/-!
Verification development for the trellis-based channel-coding core of a
digital-communications library: finite-state (Mealy) machines with their
decoding algorithms (Viterbi, streaming Viterbi, forward-backward/BCJR),
the convolutional-code termination strategies, and the streaming decoder
state.  Definitions are shallow embeddings of the library's Python code
(`FiniteStateMachine.py`, `terminations.py`, `ConvolutionalStreamDecoder.py`);
machine floats are modelled by exact rationals (`WithTop ℚ` when the code
uses `np.inf`), and fallible numpy operations return `Option`.
-/

/-! ## Numpy indexing primitives

Numpy basic integer indexing on an axis of length `n` accepts indices in
`[-n, n)`: a negative index `i` silently wraps to `n + i`, and anything
outside `[-n, n)` raises `IndexError` (modelled as `none`). -/

/-- Resolve a (possibly negative) numpy index against an axis of length `n`:
`some` of the effective nonnegative index, or `none` for `IndexError`. -/
def npWrap (n : ℕ) (i : ℤ) : Option ℕ :=
  if 0 ≤ i ∧ i < (n : ℤ) then some i.toNat
  else if -(n : ℤ) ≤ i ∧ i < 0 then some (i + n).toNat
  else none

/-- Numpy-style element lookup in a list (one axis of an ndarray). -/
def npGetL {α : Type} (l : List α) (i : ℤ) : Option α :=
  (npWrap l.length i).bind fun k => l[k]?

/-- Entry assignment `m[i, j] = v` on a matrix modelled as a total function
(the shape bookkeeping is carried by the callers, as numpy carries it in the
array object). -/
def setEntry2 {α : Type} (m : ℕ → ℕ → α) (i j : ℕ) (v : α) : ℕ → ℕ → α :=
  fun a b => if a = i ∧ b = j then v else m a b

/-- Constant matrix, as produced by `np.full` / `np.zeros`. -/
def npFull2 {α : Type} (v : α) : ℕ → ℕ → α := fun _ _ => v

/-! ## Finite-state machine (validated)

`FiniteStateMachine` with `next_states` and `outputs` tables of shape
`S × X`; states and input symbols are `Fin`-indexed (the alphabets are the
contiguous ranges `[0, S)` and `[0, X)`), output symbols are plain naturals
(they are only ever fed to the caller's metric function). -/

/-- A finite-state (Mealy) machine: the `next_states` table (`next`) and the
`outputs` table (`out`), both of shape `S × X`. -/
structure FSM (S X : ℕ) where
  next : Fin S → Fin X → Fin S
  out : Fin S → Fin X → ℕ

/-- `FiniteStateMachine.process`: replay the machine from state `s`, emitting
`outputs[s, x]` and moving to `next_states[s, x]` for each input symbol in
order; returns the output sequence and the final state. -/
def FSM.process {S X : ℕ} (M : FSM S X) (s : Fin S) : List (Fin X) → List ℕ × Fin S
  | [] => ([], s)
  | x :: xs =>
    let r := M.process (M.next s x) xs
    (M.out s x :: r.1, r.2)

/-- The `_input_edges` table built in `__attrs_post_init__`: entry `(s0, s1)`
is the input symbol `x` driving `s0 → s1` (`-1` if there is no such edge).
The Python loop scans `x` in ascending order and assigns
`input_edges[state_from, state_to] = x`, so with parallel edges the later
(larger) `x` overwrites the earlier one. -/
def inputEdges {S X : ℕ} (M : FSM S X) (s0 s1 : Fin S) : ℤ :=
  (List.finRange X).foldl (fun acc x => if M.next s0 x = s1 then (x : ℤ) else acc) (-1)

/-- `num_output_symbols` as implemented: `int(np.amax(self.outputs))`, the
maximum entry of the `outputs` table (over the raw table, here a list of
rows as in the constructor argument). -/
def numOutputSymbols (outs : List (List ℕ)) : ℕ :=
  (outs.flatMap id).foldl max 0

/-! ## `process` with raw numpy semantics

`FiniteStateMachine.process` performs no validation: it indexes
`outputs[s, x]` and `next_states[s, x]` directly, so an input symbol
`x ≥ X` (or `x < -X`) raises `IndexError` mid-loop (the call aborts, the
partially filled output array is discarded), while `-X ≤ x < 0` silently
wraps around.  Tables are the raw constructor lists, symbols are integers. -/

/-- Raw `process`: thread the numpy lookups through `Option`; `none` is the
aborted call (`IndexError`), `some` carries the output sequence and final
state. -/
def processRaw (nxt outp : List (List ℤ)) : ℤ → List ℤ → Option (List ℤ × ℤ)
  | s, [] => some ([], s)
  | s, x :: xs =>
    (npGetL outp s).bind fun orow =>
    (npGetL orow x).bind fun y =>
    (npGetL nxt s).bind fun nrow =>
    (npGetL nrow x).bind fun s2 =>
    (processRaw nxt outp s2 xs).map fun r => (y :: r.1, r.2)

/-! ## FSM construction with raw numpy semantics

`__attrs_post_init__` builds the `S × S` edge tables by the double loop
`for state_from in range(S): for x, state_to in enumerate(next_states[state_from])`,
assigning `input_edges[state_from, state_to] = x` and
`output_edges[state_from, state_to] = outputs[state_from, x]`.  The
assignment index `state_to` follows numpy semantics (wrap on `[-S, 0)`,
`IndexError` outside `[-S, S)`); ragged constructor lists already fail in
the `np.asarray` converter. -/

/-- `np.asarray` succeeds on a list of rows exactly when they all have the
same length (otherwise it raises on the inhomogeneous shape). -/
def isRect : List (List ℤ) → Bool
  | [] => true
  | r :: rs => rs.all fun r2 => r2.length == r.length

/-- Inner loop of `__attrs_post_init__` over one row of `next_states`:
`x` is the running input-symbol index, `es` the remaining entries of row
`s0`; the accumulator is the pair (input edges, output edges). -/
def edgeRowLoop (outp : List (List ℤ)) (S s0 : ℕ) :
    ℕ → List ℤ → (ℕ → ℕ → ℤ) × (ℕ → ℕ → ℤ) → Option ((ℕ → ℕ → ℤ) × (ℕ → ℕ → ℤ))
  | _, [], acc => some acc
  | x, e :: es, acc =>
    (npWrap S e).bind fun j =>
    (npGetL outp (s0 : ℤ)).bind fun orow =>
    (npGetL orow (x : ℤ)).bind fun y =>
    edgeRowLoop outp S s0 (x + 1) es (setEntry2 acc.1 s0 j (x : ℤ), setEntry2 acc.2 s0 j y)

/-- Outer loop of `__attrs_post_init__` over the rows of `next_states`. -/
def edgeRowsLoop (outp : List (List ℤ)) (S : ℕ) :
    ℕ → List (List ℤ) → (ℕ → ℕ → ℤ) × (ℕ → ℕ → ℤ) → Option ((ℕ → ℕ → ℤ) × (ℕ → ℕ → ℤ))
  | _, [], acc => some acc
  | s0, r :: rs, acc => (edgeRowLoop outp S s0 0 r acc).bind (edgeRowsLoop outp S (s0 + 1) rs)

/-- `FiniteStateMachine` construction from raw tables: the `np.asarray`
converters (rectangularity), then `__attrs_post_init__` filling the two
`np.full(-1)` edge tables; `none` is a constructor that raised (no machine
is returned to the caller). -/
def mkFSM (nxt outp : List (List ℤ)) : Option ((ℕ → ℕ → ℤ) × (ℕ → ℕ → ℤ)) :=
  if isRect nxt && isRect outp then
    edgeRowsLoop outp nxt.length 0 nxt (npFull2 (-1), npFull2 (-1))
  else none

/-! ## Streaming decoder initial memory

`ConvolutionalStreamDecoder.__attrs_post_init__` allocates
`paths = np.zeros((S, τ+1))` and `metrics = np.full((S, τ+1), np.inf)`,
then sets `metrics[self.state, -1] = 0.0`; the `-1` column index resolves
to the last column `τ`. -/

/-- The decoder memory right after construction, for `S` states, traceback
length `τ` and declared initial state `st` (shape `S × (τ+1)` is carried by
the caller, entries are total functions as in `npFull2`). -/
def streamDecoderInitMemory (S τ st : ℕ) : (ℕ → ℕ → ℤ) × (ℕ → ℕ → WithTop ℚ) :=
  (npFull2 0, setEntry2 (npFull2 ⊤) st τ 0)

/-! ## Block Viterbi decoder

`FiniteStateMachine.viterbi`: forward dynamic program over
`metrics : (L+1) × S` (initialised to `np.inf`, first row to the initial
metrics, all-zero by default) and `choices : L × S`; for each observed value
the edges are enumerated with `s0` ascending and, within `s0`, the input
symbol ascending, and an entry is replaced only on a strictly smaller
candidate metric.  Floats with `np.inf` are modelled by `WithTop ℚ`.
`np.empty` leaves `choices` uninitialised; the embedding fixes the identity
as the (irrelevant) default, and theorems about `choices` only concern
states that receive at least one finite candidate. -/

/-- The edge enumeration order of the forward pass: source state ascending,
then input symbol ascending. -/
def edgeList (S X : ℕ) : List (Fin S × Fin X) :=
  (List.finRange S).flatMap fun s0 => (List.finRange X).map fun x => (s0, x)

/-- Candidate metric of edge `e = (s0, x)` at one forward step:
`metrics[t, s0] + metric_function(outputs[s0, x], z)`.  Metric values live
in a linearly ordered additive monoid `K` (the float costs of the code are
exact rationals, an instance). -/
def viterbiCand {S X : ℕ} {Z : Type} {K : Type} [LinearOrderedAddCommMonoid K]
    (M : FSM S X) (f : ℕ → Z → K) (z : Z)
    (prev : Fin S → WithTop K) (e : Fin S × Fin X) : WithTop K :=
  prev e.1 + (f (M.out e.1 e.2) z : K)

/-- Processing of one edge in the forward pass: replace the stored metric
and predecessor of the destination state only on a strictly smaller
candidate. -/
def viterbiUpdate {S X : ℕ} {Z : Type} {K : Type} [LinearOrderedAddCommMonoid K]
    (M : FSM S X) (f : ℕ → Z → K) (z : Z)
    (prev : Fin S → WithTop K) (acc : (Fin S → WithTop K) × (Fin S → Fin S))
    (e : Fin S × Fin X) : (Fin S → WithTop K) × (Fin S → Fin S) :=
  if viterbiCand M f z prev e < acc.1 (M.next e.1 e.2) then
    (Function.update acc.1 (M.next e.1 e.2) (viterbiCand M f z prev e),
      Function.update acc.2 (M.next e.1 e.2) e.1)
  else acc

/-- One forward step of the Viterbi algorithm: the new metrics column
(initialised to `np.inf`) and the predecessor choices for this step. -/
def viterbiStep {S X : ℕ} {Z : Type} {K : Type} [LinearOrderedAddCommMonoid K]
    (M : FSM S X) (f : ℕ → Z → K) (z : Z)
    (prev : Fin S → WithTop K) : (Fin S → WithTop K) × (Fin S → Fin S) :=
  (edgeList S X).foldl (viterbiUpdate M f z prev) (fun _ => ⊤, fun s => s)

/-- The whole forward pass: final metrics column and the per-step choice
tables in time order. -/
def viterbiForward {S X : ℕ} {Z : Type} {K : Type} [LinearOrderedAddCommMonoid K]
    (M : FSM S X) (f : ℕ → Z → K)
    (init : Fin S → WithTop K) : List Z → (Fin S → WithTop K) × List (Fin S → Fin S)
  | [] => (init, [])
  | z :: zs =>
    let st := viterbiStep M f z init
    let r := viterbiForward M f st.1 zs
    (r.1, st.2 :: r.2)

/-- Backtrack along the recorded choices, latest step first: from final
state `s1`, read `s0 = choices[t, s1]`, emit `input_edges[s0, s1]`, continue
from `s0`.  Produces the decoded inputs latest-first. -/
def backtrackRev {S X : ℕ} (M : FSM S X) (s1 : Fin S) :
    List (Fin S → Fin S) → List ℤ
  | [] => []
  | c :: cs => inputEdges M (c s1) s1 :: backtrackRev M (c s1) cs

/-- `FiniteStateMachine.viterbi`: the decoded input sequence for every final
state (column `s` of `input_sequences_hat`) and the final metrics. -/
def FSM.viterbi {S X : ℕ} {Z : Type} {K : Type} [LinearOrderedAddCommMonoid K]
    (M : FSM S X) (f : ℕ → Z → K) (zs : List Z)
    (init : Fin S → WithTop K) : (Fin S → List ℤ) × (Fin S → WithTop K) :=
  let fw := viterbiForward M f init zs
  (fun s => (backtrackRev M s fw.2.reverse).reverse, fw.1)

/-! ## Per-destination view of one forward step (for the tie-break claim) -/

/-- The one-destination selection step: keep the pair (stored metric,
stored predecessor), replacing it only on a strictly smaller candidate. -/
def selStep {S X : ℕ} {K : Type} [LinearOrderedAddCommMonoid K]
    (c : Fin S × Fin X → WithTop K) (a : WithTop K × Fin S)
    (e : Fin S × Fin X) : WithTop K × Fin S :=
  if c e < a.1 then (c e, e.1) else a

/-- Folding the selection step over a list of candidate edges. -/
def selFold {S X : ℕ} {K : Type} [LinearOrderedAddCommMonoid K]
    (c : Fin S × Fin X → WithTop K) (a : WithTop K × Fin S)
    (l : List (Fin S × Fin X)) : WithTop K × Fin S :=
  l.foldl (selStep c) a

/-- The edges into destination `s1`, in enumeration order. -/
def edgesInto {S X : ℕ} (M : FSM S X) (s1 : Fin S) : List (Fin S × Fin X) :=
  (edgeList S X).filter fun e => M.next e.1 e.2 = s1

/-! ## Forward-backward (BCJR) decoder

`FiniteStateMachine.forward_backward` works in the log domain purely for
floating-point stability (`log_gamma`, `log_alpha`, `log_beta`,
`np.logaddexp.reduce`, max-subtraction before `np.exp`).  The embedding
applies the exact bijection `p = exp(log p)` throughout and computes in the
likelihood domain over `ℚ`: `-inf ↔ 0`, `logaddexp ↔ +`, `+ ↔ *`; the final
normalisation `exp(l - max l) / sum` equals `p / sum p`.  The caller's
metric function is embedded as its exponential `g y z = exp(metric(y, z))`,
a strictly positive rational (the metric is a finite float).  Default
(uniform) input priors and boundary state distributions are used, as in the
default call. -/

/-- The iteration order of `np.ndindex(X, S)`: `x` outermost. -/
def ndIndexList (X S : ℕ) : List (Fin X × Fin S) :=
  (List.finRange X).flatMap fun x => (List.finRange S).map fun s0 => (x, s0)

/-- One write of the `gamma` loop: for `p = (x, s0)`, set
`gamma[s0, next_states[s0, x]] = input_prior * g(outputs[s0, x], z)` (the
uniform prior is `1/X`). -/
def fbGammaStep {S X : ℕ} {Z : Type} (M : FSM S X) (g : ℕ → Z → ℚ) (z : Z)
    (acc : Fin S → Fin S → ℚ) (p : Fin X × Fin S) : Fin S → Fin S → ℚ :=
  Function.update acc p.2
    (Function.update (acc p.2) (M.next p.2 p.1) ((1 / (X : ℚ)) * g (M.out p.2 p.1) z))

/-- The `gamma[t]` matrix (likelihood domain) for one observed value:
the loop `for x, s0 in np.ndindex(X, S)` writes into a zero
(`= exp(-inf)`) matrix, later writes overwriting earlier ones. -/
def fbGamma {S X : ℕ} {Z : Type} (M : FSM S X) (g : ℕ → Z → ℚ) (z : Z) :
    Fin S → Fin S → ℚ :=
  (ndIndexList X S).foldl (fbGammaStep M g z) (fun _ _ => 0)

/-- One step of the forward recursion:
`alpha[t+1, s1] = sum over s0 of gamma[t, s0, s1] * alpha[t, s0]`. -/
def fbAlphaStep {S X : ℕ} {Z : Type} (M : FSM S X) (g : ℕ → Z → ℚ)
    (v : Fin S → ℚ) (z : Z) : Fin S → ℚ :=
  fun s1 => ∑ s0, fbGamma M g z s0 s1 * v s0

/-- The forward variable after consuming a prefix of the observations,
starting from the uniform initial state distribution `1/S`. -/
def fbAlpha {S X : ℕ} {Z : Type} (M : FSM S X) (g : ℕ → Z → ℚ)
    (pref : List Z) : Fin S → ℚ :=
  pref.foldl (fbAlphaStep M g) fun _ => 1 / (S : ℚ)

/-- The backward variable over the remaining observations, ending at the
uniform final state distribution `1/S`:
`beta[t, s0] = sum over s1 of gamma[t, s0, s1] * beta[t+1, s1]`. -/
def fbBeta {S X : ℕ} {Z : Type} (M : FSM S X) (g : ℕ → Z → ℚ) :
    List Z → Fin S → ℚ
  | [], _ => 1 / (S : ℚ)
  | z :: zs, s0 => ∑ s1, fbGamma M g z s0 s1 * fbBeta M g zs s1

/-- Unnormalised posterior of input `x` at the step observing `z`, with
`pref`/`suff` the observations before/after it: the sum over `s0` of
`alpha[t, s0] * gamma[t, s0, s1] * beta[t+1, s1]` with `s1 = next_states[s0, x]`. -/
def postRow {S X : ℕ} {Z : Type} (M : FSM S X) (g : ℕ → Z → ℚ)
    (pref : List Z) (z : Z) (suff : List Z) (x : Fin X) : ℚ :=
  ∑ s0, fbAlpha M g pref s0 * fbGamma M g z s0 (M.next s0 x) * fbBeta M g suff (M.next s0 x)

/-- Normalised posterior row: the code's max-subtraction, `np.exp` and
division by the row sum amount, in exact arithmetic, to dividing each
unnormalised entry by the row sum. -/
def postNorm {S X : ℕ} {Z : Type} (M : FSM S X) (g : ℕ → Z → ℚ)
    (pref : List Z) (z : Z) (suff : List Z) (x : Fin X) : ℚ :=
  postRow M g pref z suff x / ∑ x2, postRow M g pref z suff x2

/-! ## Tail-biting termination

Modelled from the spec: the convolutional encoder itself
(`ConvolutionalCode`, its `state_space_representation` and
`finite_state_machine`), the GF(2) `pseudo_inverse` and the bit utilities
are not under `src/`; per the spec they form a state-space recursion
`state = state·A + x·B` over GF(2) (row-vector convention, matching the
visible line `zs_response @ self._zs_multiplier % 2` of `terminations.py`)
whose per-step input is one pre-processed input block, and `zs_multiplier`
is the GF(2) pseudo-inverse of `A^h + I` — exact over the field, hence a
two-sided inverse when `A^h + I` is invertible (the spec speaks of *the
unique* closing initial state).  States are bit vectors `Fin ν → ZMod 2`
(the integer state and `int2binlist`/`binlist2int` are lossless). -/

/-- Modelled from the spec: one step of the convolutional encoder's
state-space recursion over GF(2), `state ← state·A + x·B`. -/
def convStep {ν κ : ℕ} (A : Matrix (Fin ν) (Fin ν) (ZMod 2))
    (B : Matrix (Fin κ) (Fin ν) (ZMod 2)) (s : Fin ν → ZMod 2)
    (x : Fin κ → ZMod 2) : Fin ν → ZMod 2 :=
  Matrix.vecMul s A + Matrix.vecMul x B

/-- Modelled from the spec: the state reached by the convolutional code's
finite-state machine after consuming the pre-processed input blocks. -/
def convRun {ν κ : ℕ} (A : Matrix (Fin ν) (Fin ν) (ZMod 2))
    (B : Matrix (Fin κ) (Fin ν) (ZMod 2)) (s : Fin ν → ZMod 2) :
    List (Fin κ → ZMod 2) → Fin ν → ZMod 2
  | [] => s
  | x :: xs => convRun A B (convStep A B s x) xs

/-- `TailBiting.initial_state`: run the machine once from state `0` (the
zero-state response), then apply the linear corrector `zs_multiplier = P`:
`initial_state = zs_response · P` over GF(2). -/
def tailBitingInitialState {ν κ : ℕ} (A : Matrix (Fin ν) (Fin ν) (ZMod 2))
    (B : Matrix (Fin κ) (Fin ν) (ZMod 2)) (P : Matrix (Fin ν) (Fin ν) (ZMod 2))
    (xs : List (Fin κ → ZMod 2)) : Fin ν → ZMod 2 :=
  Matrix.vecMul (convRun A B 0 xs) P

/-! ## Concrete machines used by the claims -/

/-- The machine of the library's doctests:
`next_states=[[0,1],[2,3],[0,1],[2,3]]`, `outputs=[[0,3],[1,2],[3,0],[2,1]]`. -/
def fsmEx : FSM 4 2 where
  next := ![![0, 1], ![2, 3], ![0, 1], ![2, 3]]
  out := ![![0, 3], ![1, 2], ![3, 0], ![2, 1]]

/-- A deterministic-edge machine on which two distinct states emit the same
output into the same destination: `0 --0/0--> 2` and `1 --1/0--> 2`. -/
def cexFSM : FSM 3 2 where
  next := ![![2, 0], ![1, 2], ![2, 1]]
  out := ![![0, 1], ![1, 0], ![1, 1]]

/-- A deterministic-edge machine whose outputs are all equal, so every
metric ties: `0 --1--> 1` and `1 --0--> 1` are parallel-in-time candidates. -/
def tieFSM : FSM 2 2 where
  next := ![![0, 1], ![1, 0]]
  out := ![![0, 0], ![0, 0]]

/-- The exact-match metric: cost `0` on the true output symbol, `1`
otherwise (a noiseless-channel cost function), with integer values. -/
def f01 : ℕ → ℕ → ℤ := fun y z => if y = z then 0 else 1

/-- The all-zero metric: every candidate ties. -/
def f0 : ℕ → ℕ → ℤ := fun _ _ => 0

/-- The one-state, one-input machine (used to instantiate BCJR). -/
def oneFSM : FSM 1 1 where
  next := fun _ _ => 0
  out := fun _ _ => 0

/-- A constant unit likelihood (the exponential of the zero metric). -/
def g1 : ℕ → ℕ → ℚ := fun _ _ => 1

/-- C9: `process([1,1,0,1,0], 0)` on the doctest machine returns the output
sequence `[3,2,2,0,1]` and final state `2`. -/
theorem process_concrete_example :
    fsmEx.process 0 [1, 1, 0, 1, 0] = ([3, 2, 2, 0, 1], 2) := by
  decide

/-- C5: `num_output_symbols` is `np.amax(outputs)` with no `+ 1`: on the
library's own doctest table it returns `3`, yet the output symbol `3` is
used and the output alphabet `{0,1,2,3}` has cardinality `4` (what the
docstring and the spec promise). -/
theorem num_output_symbols_bug :
    numOutputSymbols [[0, 3], [1, 2], [3, 0], [2, 1]] = 3 ∧
      3 ∈ ([[0, 3], [1, 2], [3, 0], [2, 1]] : List (List ℕ)).flatMap id ∧
      (([[0, 3], [1, 2], [3, 0], [2, 1]] : List (List ℕ)).flatMap id).toFinset.card = 4 := by
  decide

/-- C10: a freshly constructed `ConvolutionalStreamDecoder` memory has every
path entry `0` and every metric entry `+inf`, except the metric at (declared
initial state, last column `τ`), which is `0.0`. -/
theorem stream_decoder_init_memory_spec (S τ st : ℕ) (s o : ℕ) :
    (streamDecoderInitMemory S τ st).1 s o = 0 ∧
      (streamDecoderInitMemory S τ st).2 s o =
        (if s = st ∧ o = τ then (0 : WithTop ℚ) else ⊤) := by
  constructor
  · rfl
  · simp only [streamDecoderInitMemory, setEntry2, npFull2]

/-- C6: `process` does not fail on negative input symbols: on the doctest
machine, input sequence `[-1]` (outside `[0, 2)`) from state `0` silently
wraps to column `1` and returns output `[3]` and final state `1`. -/
theorem process_negative_symbol_cex :
    processRaw [[0, 1], [2, 3], [0, 1], [2, 3]] [[0, 3], [1, 2], [3, 0], [2, 1]]
      0 [-1] = some ([3], 1) := by
  decide

/-- C7: construction does not fail on a negative `next_states` entry: the
tables `next_states=[[0,-1],[0,1]]`, `outputs=[[0,0],[0,0]]` (entry `-1`
outside `[0, 2)`) construct successfully (the `-1` wraps to state `1`). -/
theorem construction_negative_entry_cex :
    (mkFSM [[0, -1], [0, 1]] [[0, 0], [0, 0]]).isSome = true := by
  decide

/-- C1: with the default all-zero initial metrics, exact input recovery can
fail on a noiseless channel: on `cexFSM`, `process([1], 1)` emits `[0]` and
ends in state `2`, but the zero-cost edge `0 --0/0--> 2` from the competing
start state `0` is enumerated first, so the decoded column of final state
`2` is `[0]`, not the original input `[1]` (the final metric is still `0`). -/
theorem viterbi_noiseless_recovery_cex :
    cexFSM.process 1 [1] = ([0], 2) ∧
      (cexFSM.viterbi f01 (cexFSM.process 1 [1]).1 fun _ => 0).1 (cexFSM.process 1 [1]).2 =
        [(0 : ℤ)] ∧
      (cexFSM.viterbi f01 (cexFSM.process 1 [1]).1 fun _ => 0).1 (cexFSM.process 1 [1]).2 ≠
        [(1 : ℤ)] ∧
      (cexFSM.viterbi f01 (cexFSM.process 1 [1]).1 fun _ => 0).2 (cexFSM.process 1 [1]).2 = 0 := by
  decide

/-- C8: the lowest-numbered input symbol does not always win a tie: on
`tieFSM` with the all-zero metric, the edges `(s0,x) = (0,1)` and `(1,0)`
into state `1` have equal candidate metrics, the first-enumerated edge
`(0,1)` (lower source state, higher input symbol) survives, and the decoded
input for final state `1` is `1`, not the lower tying input symbol `0`. -/
theorem viterbi_tie_lowest_input_cex :
    (tieFSM.viterbi f0 [0] fun _ => 0).1 1 = [(1 : ℤ)] ∧
      viterbiCand tieFSM f0 0 (fun _ => 0) (1, 0) =
        viterbiCand tieFSM f0 0 (fun _ => 0) (0, 1) ∧
      tieFSM.next 1 0 = 1 := by
  decide

/-- Linearity of the GF(2) state-space recursion: the state reached from
`s` splits into the zero-input response `s·A^L` plus the zero-state
response. -/
theorem convRun_eq_vecMul_add {ν κ : ℕ} (A : Matrix (Fin ν) (Fin ν) (ZMod 2))
    (B : Matrix (Fin κ) (Fin ν) (ZMod 2)) (s : Fin ν → ZMod 2)
    (xs : List (Fin κ → ZMod 2)) :
    convRun A B s xs = Matrix.vecMul s (A ^ xs.length) + convRun A B 0 xs := by
  induction xs generalizing s with
  | nil =>
    simp [convRun, Matrix.vecMul_one]
  | cons x xs ih =>
    have hz : convRun A B 0 (x :: xs) =
        Matrix.vecMul (Matrix.vecMul x B) (A ^ xs.length) + convRun A B 0 xs := by
      show convRun A B (convStep A B 0 x) xs = _
      rw [ih (convStep A B 0 x)]
      simp [convStep, Matrix.zero_vecMul]
    show convRun A B (convStep A B s x) xs = _
    rw [ih (convStep A B s x), hz]
    simp only [convStep, Matrix.add_vecMul, Matrix.vecMul_vecMul, List.length_cons]
    rw [pow_succ']
    abel

/-- C2: tail-biting closes the trajectory: if the corrector `P`
(`zs_multiplier`, the exact GF(2) pseudo-inverse — a left inverse of
`A^h + I`, whose invertibility the spec implies by "the unique initial
state") is given, where `h` is the number of input blocks, then running the
machine on the pre-processed input from
`TailBiting.initial_state(input_bits)` ends in that same state. -/
theorem tailbiting_closure {ν κ : ℕ} (A : Matrix (Fin ν) (Fin ν) (ZMod 2))
    (B : Matrix (Fin κ) (Fin ν) (ZMod 2)) (P : Matrix (Fin ν) (Fin ν) (ZMod 2))
    (xs : List (Fin κ → ZMod 2))
    (hP : P * (A ^ xs.length + 1) = 1) :
    convRun A B (tailBitingInitialState A B P xs) xs = tailBitingInitialState A B P xs := by
  set c := convRun A B 0 xs with hc
  set si := tailBitingInitialState A B P xs with hsi
  have hsiP : si = Matrix.vecMul c P := rfl
  have key : Matrix.vecMul si (A ^ xs.length) + si = c := by
    calc Matrix.vecMul si (A ^ xs.length) + si
        = Matrix.vecMul si (A ^ xs.length) + Matrix.vecMul si 1 := by
          rw [Matrix.vecMul_one]
      _ = Matrix.vecMul si (A ^ xs.length + 1) := by
          rw [Matrix.vecMul_add]
      _ = Matrix.vecMul c (P * (A ^ xs.length + 1)) := by
          rw [hsiP, Matrix.vecMul_vecMul]
      _ = c := by rw [hP, Matrix.vecMul_one]
  rw [convRun_eq_vecMul_add A B si xs, ← hc]
  have : c = Matrix.vecMul si (A ^ xs.length) + si := key.symm
  rw [this, ← add_assoc]
  funext i
  simp [CharTwo.add_self_eq_zero]

/-- Witness for `tailbiting_closure` at `ν = κ = 1`, `A = 0`, `B = P = 1`,
one input block `[1]`. -/
theorem tailbiting_closure_instance :
    (1 : Matrix (Fin 1) (Fin 1) (ZMod 2)) *
        ((0 : Matrix (Fin 1) (Fin 1) (ZMod 2)) ^ ([![(1 : ZMod 2)]]).length + 1) = 1 ∧
      convRun (0 : Matrix (Fin 1) (Fin 1) (ZMod 2)) (1 : Matrix (Fin 1) (Fin 1) (ZMod 2))
          (tailBitingInitialState 0 1 1 [![(1 : ZMod 2)]]) [![(1 : ZMod 2)]] =
        tailBitingInitialState 0 1 1 [![(1 : ZMod 2)]] :=
  ⟨by decide, tailbiting_closure 0 1 1 [![(1 : ZMod 2)]] (by decide)⟩

/-- `npWrap` fails exactly outside `[-n, n)`. -/
theorem npWrap_eq_none_iff (n : ℕ) (i : ℤ) :
    npWrap n i = none ↔ i < -(n : ℤ) ∨ (n : ℤ) ≤ i := by
  unfold npWrap
  split
  · constructor
    · intro h; cases h
    · omega
  · split
    · constructor
      · intro h; cases h
      · omega
    · constructor
      · intro _; omega
      · intro _; rfl

/-- A successful `npWrap` lands inside the axis. -/
theorem npWrap_lt {n : ℕ} {i : ℤ} {k : ℕ} (h : npWrap n i = some k) : k < n := by
  unfold npWrap at h
  split at h
  · cases h; omega
  · split at h
    · cases h; omega
    · cases h

/-- `npGetL` fails exactly outside `[-len, len)`. -/
theorem npGetL_eq_none_iff {α : Type} (l : List α) (i : ℤ) :
    npGetL l i = none ↔ i < -(l.length : ℤ) ∨ (l.length : ℤ) ≤ i := by
  unfold npGetL
  rcases h : npWrap l.length i with _ | k
  · simp only [Option.none_bind]
    rw [← npWrap_eq_none_iff l.length i, h]
    simp
  · have hk : k < l.length := npWrap_lt h
    have hnone : ¬(i < -(l.length : ℤ) ∨ (l.length : ℤ) ≤ i) := by
      intro hc
      rw [← npWrap_eq_none_iff l.length i] at hc
      rw [h] at hc
      cases hc
    simp only [Option.some_bind]
    simp [List.getElem?_eq_some_iff, hk, hnone]

/-- A successful `npGetL` returns a member of the list. -/
theorem npGetL_mem {α : Type} {l : List α} {i : ℤ} {a : α}
    (h : npGetL l i = some a) : a ∈ l := by
  unfold npGetL at h
  rcases Option.bind_eq_some.mp h with ⟨k, _, hg⟩
  exact List.getElem?_mem hg

/-- C6 (amended): on a valid machine (rectangular `S × X` tables, in-range
`next_states` entries) and a valid initial state, `process` aborts with an
error and no partial output exactly when some input symbol lies outside
`[-X, X)`; symbols in `[-X, 0)` are accepted silently (numpy wraparound),
refuting failure for all symbols outside `[0, X)`. -/
theorem process_failure_iff (nxt outp : List (List ℤ)) (S X : ℕ)
    (hnl : nxt.length = S) (hnr : ∀ r ∈ nxt, r.length = X)
    (hol : outp.length = S) (hor : ∀ r ∈ outp, r.length = X)
    (hent : ∀ r ∈ nxt, ∀ e ∈ r, 0 ≤ e ∧ e < (S : ℤ))
    (s : ℤ) (hs : 0 ≤ s ∧ s < (S : ℤ)) (xs : List ℤ) :
    (processRaw nxt outp s xs = none ↔ ∃ x ∈ xs, x < -(X : ℤ) ∨ (X : ℤ) ≤ x) := by
  induction xs generalizing s with
  | nil => simp [processRaw]
  | cons x xs ih =>
    have h1 : npGetL outp s ≠ none := by
      intro hc
      rw [npGetL_eq_none_iff, hol] at hc
      omega
    obtain ⟨orow, horr⟩ := Option.ne_none_iff_exists'.mp h1
    have horl : orow.length = X := hor orow (npGetL_mem horr)
    have h3 : npGetL nxt s ≠ none := by
      intro hc
      rw [npGetL_eq_none_iff, hnl] at hc
      omega
    obtain ⟨nrow, hnrr⟩ := Option.ne_none_iff_exists'.mp h3
    have hnrowl : nrow.length = X := hnr nrow (npGetL_mem hnrr)
    simp only [processRaw, horr, hnrr, Option.some_bind]
    by_cases hx : x < -(X : ℤ) ∨ (X : ℤ) ≤ x
    · have h2 : npGetL orow x = none := by
        rw [npGetL_eq_none_iff, horl]
        exact hx
      simp only [h2, Option.none_bind, true_iff]
      exact ⟨x, List.mem_cons_self x xs, hx⟩
    · have h2 : npGetL orow x ≠ none := by
        intro hc
        rw [npGetL_eq_none_iff, horl] at hc
        exact hx hc
      obtain ⟨y, hy⟩ := Option.ne_none_iff_exists'.mp h2
      have h4 : npGetL nrow x ≠ none := by
        intro hc
        rw [npGetL_eq_none_iff, hnrowl] at hc
        exact hx hc
      obtain ⟨s2, hs2⟩ := Option.ne_none_iff_exists'.mp h4
      have hs2b : 0 ≤ s2 ∧ s2 < (S : ℤ) :=
        hent nrow (npGetL_mem hnrr) s2 (npGetL_mem hs2)
      simp only [hy, hs2, Option.some_bind, Option.map_eq_none']
      rw [ih s2 hs2b]
      constructor
      · rintro ⟨a, ha, hb⟩
        exact ⟨a, List.mem_cons_of_mem _ ha, hb⟩
      · rintro ⟨a, ha, hb⟩
        rcases List.mem_cons.mp ha with h | h
        · subst h
          exact absurd hb hx
        · exact ⟨a, h, hb⟩

/-- Witness for `process_failure_iff` on the doctest machine with the
out-of-alphabet input `[5]`. -/
theorem process_failure_iff_instance :
    (processRaw [[0, 1], [2, 3], [0, 1], [2, 3]] [[0, 3], [1, 2], [3, 0], [2, 1]] 0 [5] =
        none ↔ ∃ x ∈ [(5 : ℤ)], x < -((2 : ℕ) : ℤ) ∨ ((2 : ℕ) : ℤ) ≤ x) :=
  process_failure_iff [[0, 1], [2, 3], [0, 1], [2, 3]] [[0, 3], [1, 2], [3, 0], [2, 1]]
    4 2 rfl (by decide) rfl (by decide) (by decide) 0 (by decide) [5]

/-- Rows of equal length pass the `np.asarray` rectangularity conversion. -/
theorem isRect_of_rows {l : List (List ℤ)} {X : ℕ} (h : ∀ r ∈ l, r.length = X) :
    isRect l = true := by
  cases l with
  | nil => rfl
  | cons r rs =>
    unfold isRect
    rw [List.all_eq_true]
    intro r2 hr2
    have h1 : r2.length = X := h r2 (List.mem_cons_of_mem _ hr2)
    have h2 : r.length = X := h r (List.mem_cons_self _ _)
    simp [h1, h2]

/-- The inner `__attrs_post_init__` loop over one `next_states` row fails
exactly on an entry outside `[-S, S)`. -/
theorem edgeRowLoop_none_iff (outp : List (List ℤ)) (S X s0 : ℕ)
    (hol : outp.length = S) (hor : ∀ r ∈ outp, r.length = X) (hs0 : s0 < S)
    (es : List ℤ) :
    ∀ (x0 : ℕ) (acc : (ℕ → ℕ → ℤ) × (ℕ → ℕ → ℤ)), x0 + es.length ≤ X →
      (edgeRowLoop outp S s0 x0 es acc = none ↔
        ∃ e ∈ es, e < -(S : ℤ) ∨ (S : ℤ) ≤ e) := by
  induction es with
  | nil => intro x0 acc _; simp [edgeRowLoop]
  | cons e es ih =>
    intro x0 acc hle
    by_cases he : e < -(S : ℤ) ∨ (S : ℤ) ≤ e
    · have hw : npWrap S e = none := (npWrap_eq_none_iff S e).mpr he
      simp only [edgeRowLoop, hw, Option.none_bind, true_iff]
      exact ⟨e, List.mem_cons_self _ _, he⟩
    · have hw : npWrap S e ≠ none := by
        intro hc
        exact he ((npWrap_eq_none_iff S e).mp hc)
      obtain ⟨j, hj⟩ := Option.ne_none_iff_exists'.mp hw
      have h1 : npGetL outp (s0 : ℤ) ≠ none := by
        intro hc
        rw [npGetL_eq_none_iff, hol] at hc
        omega
      obtain ⟨orow, horr⟩ := Option.ne_none_iff_exists'.mp h1
      have horl : orow.length = X := hor orow (npGetL_mem horr)
      have h2 : npGetL orow (x0 : ℤ) ≠ none := by
        intro hc
        rw [npGetL_eq_none_iff, horl] at hc
        simp only [List.length_cons] at hle
        omega
      obtain ⟨y, hy⟩ := Option.ne_none_iff_exists'.mp h2
      simp only [edgeRowLoop, hj, horr, hy, Option.some_bind]
      rw [ih (x0 + 1) _ (by simp only [List.length_cons] at hle; omega)]
      constructor
      · rintro ⟨a, ha, hb⟩
        exact ⟨a, List.mem_cons_of_mem _ ha, hb⟩
      · rintro ⟨a, ha, hb⟩
        rcases List.mem_cons.mp ha with h | h
        · subst h
          exact absurd hb he
        · exact ⟨a, h, hb⟩

/-- The outer `__attrs_post_init__` loop fails exactly on a `next_states`
entry outside `[-S, S)`. -/
theorem edgeRowsLoop_none_iff (outp : List (List ℤ)) (S X : ℕ)
    (hol : outp.length = S) (hor : ∀ r ∈ outp, r.length = X)
    (rs : List (List ℤ)) :
    ∀ (s0 : ℕ) (acc : (ℕ → ℕ → ℤ) × (ℕ → ℕ → ℤ)),
      s0 + rs.length ≤ S → (∀ r ∈ rs, r.length = X) →
      (edgeRowsLoop outp S s0 rs acc = none ↔
        ∃ r ∈ rs, ∃ e ∈ r, e < -(S : ℤ) ∨ (S : ℤ) ≤ e) := by
  induction rs with
  | nil => intro s0 acc _ _; simp [edgeRowsLoop]
  | cons r rs ih =>
    intro s0 acc hle hrows
    have hs0 : s0 < S := by simp only [List.length_cons] at hle; omega
    have hrX : r.length = X := hrows r (List.mem_cons_self _ _)
    have hrow := edgeRowLoop_none_iff outp S X s0 hol hor hs0 r 0 acc (by omega)
    by_cases hr : ∃ e ∈ r, e < -(S : ℤ) ∨ (S : ℤ) ≤ e
    · have hnone : edgeRowLoop outp S s0 0 r acc = none := hrow.mpr hr
      simp only [edgeRowsLoop, hnone, Option.none_bind, true_iff]
      exact ⟨r, List.mem_cons_self _ _, hr⟩
    · have hne : edgeRowLoop outp S s0 0 r acc ≠ none := by
        intro hc
        exact hr (hrow.mp hc)
      obtain ⟨acc2, hacc2⟩ := Option.ne_none_iff_exists'.mp hne
      simp only [edgeRowsLoop, hacc2, Option.some_bind]
      rw [ih (s0 + 1) acc2 (by simp only [List.length_cons] at hle; omega)
        (fun r2 h2 => hrows r2 (List.mem_cons_of_mem _ h2))]
      constructor
      · rintro ⟨a, ha, hb⟩
        exact ⟨a, List.mem_cons_of_mem _ ha, hb⟩
      · rintro ⟨a, ha, hb⟩
        rcases List.mem_cons.mp ha with h | h
        · subst h
          exact absurd hb hr
        · exact ⟨a, h, hb⟩

/-- C7 (amended): for rectangular tables of identical shape `S × X`,
`FiniteStateMachine` construction fails (raising before any machine is
returned) exactly when some `next_states` entry lies outside `[-S, S)`;
negative entries in `[-S, 0)` are accepted silently (numpy wraparound),
refuting construction failure for all entries outside `[0, S)`. -/
theorem mkFSM_none_iff (nxt outp : List (List ℤ)) (S X : ℕ)
    (hnl : nxt.length = S) (hnr : ∀ r ∈ nxt, r.length = X)
    (hol : outp.length = S) (hor : ∀ r ∈ outp, r.length = X) :
    (mkFSM nxt outp = none ↔ ∃ r ∈ nxt, ∃ e ∈ r, e < -(S : ℤ) ∨ (S : ℤ) ≤ e) := by
  unfold mkFSM
  rw [isRect_of_rows hnr, isRect_of_rows hor, hnl]
  simp only [Bool.and_self, if_true]
  exact edgeRowsLoop_none_iff outp S X hol hor nxt 0 _ (by omega) hnr

/-- Witness for `mkFSM_none_iff` with `next_states=[[0,2]]` (entry `2`
outside `[-1, 1)`), `outputs=[[0,0]]`. -/
theorem mkFSM_none_iff_instance :
    (mkFSM [[0, 2]] [[0, 0]] = none ↔
      ∃ r ∈ [[(0 : ℤ), 2]], ∃ e ∈ r, e < -((1 : ℕ) : ℤ) ∨ ((1 : ℕ) : ℤ) ≤ e) :=
  mkFSM_none_iff [[0, 2]] [[0, 0]] 1 2 rfl (by decide) rfl (by decide)

/-- Every edge `(s0, x)` occurs in the forward-pass enumeration. -/
theorem mem_edgeList {S X : ℕ} (e : Fin S × Fin X) : e ∈ edgeList S X := by
  unfold edgeList
  rw [List.mem_flatMap]
  exact ⟨e.1, List.mem_finRange e.1, List.mem_map.mpr ⟨e.2, List.mem_finRange e.2, rfl⟩⟩

/-- The forward fold never increases a stored metric. -/
theorem viterbiFold_anti {S X : ℕ} {Z K : Type} [LinearOrderedAddCommMonoid K]
    (M : FSM S X) (f : ℕ → Z → K) (z : Z) (prev : Fin S → WithTop K)
    (l : List (Fin S × Fin X)) :
    ∀ (acc : (Fin S → WithTop K) × (Fin S → Fin S)) (s : Fin S),
      (l.foldl (viterbiUpdate M f z prev) acc).1 s ≤ acc.1 s := by
  induction l with
  | nil => intro acc s; exact le_refl _
  | cons e l ih =>
    intro acc s
    refine le_trans (ih (viterbiUpdate M f z prev acc e) s) ?_
    unfold viterbiUpdate
    split
    · rename_i hlt
      rcases eq_or_ne s (M.next e.1 e.2) with h | h
      · subst h
        simp only [Function.update_same]
        exact le_of_lt hlt
      · simp only [Function.update_noteq h]
        exact le_refl _
    · exact le_refl _

/-- After one forward step, the stored metric of a destination state is at
most the candidate metric of any edge into it. -/
theorem viterbiStep_le_cand {S X : ℕ} {Z K : Type} [LinearOrderedAddCommMonoid K]
    (M : FSM S X) (f : ℕ → Z → K) (z : Z) (prev : Fin S → WithTop K)
    (e : Fin S × Fin X) :
    (viterbiStep M f z prev).1 (M.next e.1 e.2) ≤ viterbiCand M f z prev e := by
  obtain ⟨l1, l2, hsplit⟩ := List.append_of_mem (mem_edgeList e)
  unfold viterbiStep
  rw [hsplit, List.foldl_append, List.foldl_cons]
  set acc1 := l1.foldl (viterbiUpdate M f z prev) (fun _ => ⊤, fun s => s) with hacc1
  refine le_trans (viterbiFold_anti M f z prev l2 _ _) ?_
  unfold viterbiUpdate
  split
  · simp only [Function.update_same]
    exact le_refl _
  · rename_i hnlt
    exact not_lt.mp hnlt

/-- One forward step preserves nonnegativity of the stored metrics. -/
theorem viterbiStep_nonneg {S X : ℕ} {Z K : Type} [LinearOrderedAddCommMonoid K]
    (M : FSM S X) (f : ℕ → Z → K) (z : Z) (prev : Fin S → WithTop K)
    (hprev : ∀ s, 0 ≤ prev s) (hf : ∀ y w, 0 ≤ f y w) :
    ∀ s, 0 ≤ (viterbiStep M f z prev).1 s := by
  unfold viterbiStep
  have key : ∀ (l : List (Fin S × Fin X)) (acc : (Fin S → WithTop K) × (Fin S → Fin S)),
      (∀ s, 0 ≤ acc.1 s) → ∀ s, 0 ≤ (l.foldl (viterbiUpdate M f z prev) acc).1 s := by
    intro l
    induction l with
    | nil => intro acc h s; exact h s
    | cons e l ih =>
      intro acc h s
      refine ih (viterbiUpdate M f z prev acc e) ?_ s
      intro s2
      unfold viterbiUpdate
      split
      · rcases eq_or_ne s2 (M.next e.1 e.2) with h2 | h2
        · subst h2
          simp only [Function.update_same]
          refine add_nonneg (hprev e.1) ?_
          rw [← WithTop.coe_zero, WithTop.coe_le_coe]
          exact hf _ _
        · simp only [Function.update_noteq h2]
          exact h s2
      · exact h s2
  exact key (edgeList S X) _ (fun _ => le_top)

/-- The whole forward pass preserves nonnegativity of the metrics. -/
theorem viterbiForward_nonneg {S X : ℕ} {Z K : Type} [LinearOrderedAddCommMonoid K]
    (M : FSM S X) (f : ℕ → Z → K) (hf : ∀ y w, 0 ≤ f y w) (zs : List Z) :
    ∀ (init : Fin S → WithTop K), (∀ s, 0 ≤ init s) →
      ∀ s, 0 ≤ (viterbiForward M f init zs).1 s := by
  induction zs with
  | nil => intro init h s; exact h s
  | cons z zs ih =>
    intro init h s
    exact ih _ (viterbiStep_nonneg M f z init h hf) s

/-- Along the true trajectory of `process`, the forward pass keeps the
metric of the visited state at most the initial metric of the start state
(each true edge has cost zero). -/
theorem viterbiForward_true_path_le {S X : ℕ} {K : Type} [LinearOrderedAddCommMonoid K]
    (M : FSM S X) (f : ℕ → ℕ → K) (hdiag : ∀ y, f y y = 0) (xs : List (Fin X)) :
    ∀ (si : Fin S) (init : Fin S → WithTop K),
      (viterbiForward M f init (M.process si xs).1).1 (M.process si xs).2 ≤ init si := by
  induction xs with
  | nil => intro si init; exact le_refl _
  | cons x xs ih =>
    intro si init
    have hstep : (viterbiStep M f (M.out si x) init).1 (M.next si x) ≤ init si := by
      have h1 := viterbiStep_le_cand M f (M.out si x) init (si, x)
      unfold viterbiCand at h1
      rw [hdiag (M.out si x)] at h1
      simpa using h1
    exact le_trans (ih (M.next si x) (viterbiStep M f (M.out si x) init).1) hstep

/-- C1 (amended): on a noiseless channel (observed sequence produced by
`process`, metric zero exactly on the true output and strictly positive
otherwise), `viterbi` with the default all-zero initial metrics gives final
metric `0` for the state in which `process` ended.  (Exact recovery of the
input sequence, also claimed, fails: see the counterexample.) -/
theorem viterbi_noiseless_final_metric_zero {S X : ℕ} {K : Type}
    [LinearOrderedAddCommMonoid K] (M : FSM S X) (f : ℕ → ℕ → K)
    (hf0 : ∀ y z, y = z → f y z = 0) (hfpos : ∀ y z, y ≠ z → 0 < f y z)
    (si : Fin S) (xs : List (Fin X)) :
    (M.viterbi f (M.process si xs).1 fun _ => 0).2 (M.process si xs).2 = 0 := by
  have hf : ∀ y w, 0 ≤ f y w := by
    intro y w
    rcases eq_or_ne y w with h | h
    · exact le_of_eq (hf0 y w h).symm
    · exact le_of_lt (hfpos y w h)
  have hub := viterbiForward_true_path_le M f (fun y => hf0 y y rfl) xs si fun _ => 0
  have hlb := viterbiForward_nonneg M f hf (M.process si xs).1 (fun _ => 0)
    (fun _ => le_refl 0) (M.process si xs).2
  exact le_antisymm hub hlb

set_option maxRecDepth 4000 in
/-- Witness for `viterbi_noiseless_final_metric_zero` on the doctest
machine with input `[1,1,0,1,0]` from state `0` and the exact-match
metric. -/
theorem viterbi_noiseless_final_metric_zero_instance :
    (∀ y z : ℕ, y = z → f01 y z = 0) ∧ (∀ y z : ℕ, y ≠ z → 0 < f01 y z) ∧
      (fsmEx.viterbi f01 (fsmEx.process 0 [1, 1, 0, 1, 0]).1 fun _ => 0).2
        (fsmEx.process 0 [1, 1, 0, 1, 0]).2 = 0 :=
  ⟨fun y z h => by simp [f01, h], fun y z h => by simp [f01, h],
    viterbi_noiseless_final_metric_zero fsmEx f01
      (fun y z h => by simp [f01, h]) (fun y z h => by simp [f01, h]) 0 [1, 1, 0, 1, 0]⟩

/-- Projection of the forward fold onto one destination state: only the
edges into that state matter, processed by the selection step in
enumeration order. -/
theorem viterbiFold_proj {S X : ℕ} {Z K : Type} [LinearOrderedAddCommMonoid K]
    (M : FSM S X) (f : ℕ → Z → K) (z : Z) (prev : Fin S → WithTop K)
    (l : List (Fin S × Fin X)) :
    ∀ (acc : (Fin S → WithTop K) × (Fin S → Fin S)) (s1 : Fin S),
      ((l.foldl (viterbiUpdate M f z prev) acc).1 s1,
        (l.foldl (viterbiUpdate M f z prev) acc).2 s1) =
      selFold (viterbiCand M f z prev) (acc.1 s1, acc.2 s1)
        (l.filter fun e => M.next e.1 e.2 = s1) := by
  induction l with
  | nil => intro acc s1; rfl
  | cons e l ih =>
    intro acc s1
    rw [List.foldl_cons, List.filter_cons]
    by_cases h : M.next e.1 e.2 = s1
    · subst h
      rw [if_pos (by simp)]
      rw [ih (viterbiUpdate M f z prev acc e) (M.next e.1 e.2)]
      have hpair : ((viterbiUpdate M f z prev acc e).1 (M.next e.1 e.2),
          (viterbiUpdate M f z prev acc e).2 (M.next e.1 e.2)) =
          selStep (viterbiCand M f z prev) (acc.1 (M.next e.1 e.2), acc.2 (M.next e.1 e.2)) e := by
        unfold viterbiUpdate selStep
        split
        · simp only [Function.update_same]
        · rfl
      rw [hpair]
      rfl
    · rw [if_neg (by simp [h])]
      rw [ih (viterbiUpdate M f z prev acc e) s1]
      have hpair : ((viterbiUpdate M f z prev acc e).1 s1,
          (viterbiUpdate M f z prev acc e).2 s1) = (acc.1 s1, acc.2 s1) := by
        unfold viterbiUpdate
        split
        · have hne : s1 ≠ M.next e.1 e.2 := fun hc => h hc.symm
          simp only [Function.update_noteq hne]
        · rfl
      rw [hpair]
  
/-- If a value is below the accumulator and below every candidate of the
list, it stays below the selected metric. -/
theorem selFold_lt {S X : ℕ} {K : Type} [LinearOrderedAddCommMonoid K]
    (c : Fin S × Fin X → WithTop K) (v : WithTop K) (l : List (Fin S × Fin X)) :
    ∀ (a : WithTop K × Fin S), v < a.1 → (∀ e ∈ l, v < c e) →
      v < (selFold c a l).1 := by
  induction l with
  | nil => intro a ha _; exact ha
  | cons e l ih =>
    intro a ha hl
    show v < (selFold c (selStep c a e) l).1
    refine ih (selStep c a e) ?_ fun e2 h2 => hl e2 (List.mem_cons_of_mem _ h2)
    unfold selStep
    split
    · exact hl e (List.mem_cons_self _ _)
    · exact ha

/-- If no candidate beats the accumulator, the selection is unchanged. -/
theorem selFold_const {S X : ℕ} {K : Type} [LinearOrderedAddCommMonoid K]
    (c : Fin S × Fin X → WithTop K) (l : List (Fin S × Fin X)) :
    ∀ (a : WithTop K × Fin S), (∀ e ∈ l, a.1 ≤ c e) → selFold c a l = a := by
  induction l with
  | nil => intro a _; rfl
  | cons e l ih =>
    intro a ha
    show selFold c (selStep c a e) l = a
    have hstep : selStep c a e = a := by
      unfold selStep
      rw [if_neg (not_lt.mpr (ha e (List.mem_cons_self _ _)))]
    rw [hstep]
    exact ih a fun e2 h2 => ha e2 (List.mem_cons_of_mem _ h2)

/-- C8 (amended): in one forward step of `viterbi`, among the edges into a
destination state — enumerated with source state ascending and, within a
source state, input symbol ascending — the first edge achieving the minimal
candidate metric wins: on ties the earlier-enumerated edge (the lower
source state) survives, the stored metric is its candidate and the stored
predecessor its source state (not necessarily the edge with the
lowest-numbered input symbol). -/
theorem viterbi_tie_first_seen {S X : ℕ} {Z K : Type} [LinearOrderedAddCommMonoid K]
    (M : FSM S X) (f : ℕ → Z → K) (z : Z) (prev : Fin S → WithTop K) (s1 : Fin S)
    (e : Fin S × Fin X) (l1 l2 : List (Fin S × Fin X))
    (hsplit : edgesInto M s1 = l1 ++ e :: l2)
    (htop : viterbiCand M f z prev e < ⊤)
    (hbefore : ∀ e2 ∈ l1, viterbiCand M f z prev e < viterbiCand M f z prev e2)
    (hafter : ∀ e2 ∈ l2, viterbiCand M f z prev e ≤ viterbiCand M f z prev e2) :
    (viterbiStep M f z prev).1 s1 = viterbiCand M f z prev e ∧
      (viterbiStep M f z prev).2 s1 = e.1 := by
  have hproj := viterbiFold_proj M f z prev (edgeList S X) (fun _ => ⊤, fun s => s) s1
  have hfilter : ((edgeList S X).filter fun e2 => M.next e2.1 e2.2 = s1) = edgesInto M s1 := rfl
  rw [hfilter, hsplit] at hproj
  unfold selFold at hproj
  rw [List.foldl_append, List.foldl_cons] at hproj
  have hm1 : viterbiCand M f z prev e <
      (selFold (viterbiCand M f z prev) (⊤, s1) l1).1 :=
    selFold_lt (viterbiCand M f z prev) _ l1 (⊤, s1) htop hbefore
  have hsel : selStep (viterbiCand M f z prev)
      (selFold (viterbiCand M f z prev) (⊤, s1) l1) e =
      (viterbiCand M f z prev e, e.1) := by
    unfold selStep
    rw [if_pos hm1]
  have hfinal : List.foldl (selStep (viterbiCand M f z prev))
      (selStep (viterbiCand M f z prev)
        (List.foldl (selStep (viterbiCand M f z prev)) (⊤, s1) l1) e) l2 =
      (viterbiCand M f z prev e, e.1) := by
    have h1 : List.foldl (selStep (viterbiCand M f z prev)) (⊤, s1) l1 =
        selFold (viterbiCand M f z prev) (⊤, s1) l1 := rfl
    rw [h1, hsel]
    exact selFold_const (viterbiCand M f z prev) l2 _ hafter
  rw [hfinal] at hproj
  exact ⟨congrArg Prod.fst hproj, congrArg Prod.snd hproj⟩

/-- Witness for `viterbi_tie_first_seen` on the all-ties machine: the edges
`(0,1)` and `(1,0)` into state `1` tie, and the first-enumerated `(0,1)`
wins. -/
theorem viterbi_tie_first_seen_instance :
    edgesInto tieFSM (1 : Fin 2) = [] ++ ((0 : Fin 2), (1 : Fin 2)) :: [(1, 0)] ∧
      viterbiCand tieFSM f0 0 (fun _ => (0 : WithTop ℤ)) (0, 1) < ⊤ ∧
      (∀ e2 ∈ ([] : List (Fin 2 × Fin 2)),
        viterbiCand tieFSM f0 0 (fun _ => (0 : WithTop ℤ)) (0, 1) <
          viterbiCand tieFSM f0 0 (fun _ => 0) e2) ∧
      (∀ e2 ∈ [((1 : Fin 2), (0 : Fin 2))],
        viterbiCand tieFSM f0 0 (fun _ => (0 : WithTop ℤ)) (0, 1) ≤
          viterbiCand tieFSM f0 0 (fun _ => 0) e2) ∧
      ((viterbiStep tieFSM f0 0 fun _ => (0 : WithTop ℤ)).1 1 =
          viterbiCand tieFSM f0 0 (fun _ => 0) (0, 1) ∧
        (viterbiStep tieFSM f0 0 fun _ => (0 : WithTop ℤ)).2 1 = (0 : Fin 2)) :=
  ⟨by decide, by decide, by decide, by decide,
    viterbi_tie_first_seen tieFSM f0 0 (fun _ => 0) 1 (0, 1) [] [(1, 0)]
      (by decide) (by decide) (by decide) (by decide)⟩

/-- Entrywise description of one `gamma` write. -/
theorem fbGammaStep_apply {S X : ℕ} {Z : Type} (M : FSM S X) (g : ℕ → Z → ℚ) (z : Z)
    (acc : Fin S → Fin S → ℚ) (p : Fin X × Fin S) (a b : Fin S) :
    fbGammaStep M g z acc p a b =
      if a = p.2 ∧ b = M.next p.2 p.1 then (1 / (X : ℚ)) * g (M.out p.2 p.1) z
      else acc a b := by
  unfold fbGammaStep
  rcases eq_or_ne a p.2 with ha | ha
  · subst ha
    rw [Function.update_same, Function.update_apply]
    simp
  · rw [Function.update_noteq ha]
    simp [ha]

/-- Every pair `(x, s0)` occurs in the `np.ndindex(X, S)` enumeration. -/
theorem mem_ndIndexList {X S : ℕ} (p : Fin X × Fin S) : p ∈ ndIndexList X S := by
  unfold ndIndexList
  rw [List.mem_flatMap]
  exact ⟨p.1, List.mem_finRange p.1, List.mem_map.mpr ⟨p.2, List.mem_finRange p.2, rfl⟩⟩

/-- All entries of `gamma` are nonnegative. -/
theorem fbGamma_nonneg {S X : ℕ} {Z : Type} (M : FSM S X) (g : ℕ → Z → ℚ) (z : Z)
    (hg0 : ∀ y w, 0 ≤ g y w) (s0 s1 : Fin S) : 0 ≤ fbGamma M g z s0 s1 := by
  unfold fbGamma
  have key : ∀ (l : List (Fin X × Fin S)) (acc : Fin S → Fin S → ℚ),
      (∀ a b, 0 ≤ acc a b) → ∀ a b, 0 ≤ l.foldl (fbGammaStep M g z) acc a b := by
    intro l
    induction l with
    | nil => intro acc h a b; exact h a b
    | cons p l ih =>
      intro acc h a b
      refine ih (fbGammaStep M g z acc p) ?_ a b
      intro a2 b2
      rw [fbGammaStep_apply]
      split
      · exact mul_nonneg (one_div_nonneg.mpr (Nat.cast_nonneg X)) (hg0 _ _)
      · exact h a2 b2
  exact key (ndIndexList X S) _ (fun _ _ => le_refl 0) s0 s1

/-- Every trellis-edge entry of `gamma` is strictly positive. -/
theorem fbGamma_edge_pos {S X : ℕ} {Z : Type} (M : FSM S X) (g : ℕ → Z → ℚ) (z : Z)
    (hX : 0 < X) (hg : ∀ y w, 0 < g y w) (s0 : Fin S) (x : Fin X) :
    0 < fbGamma M g z s0 (M.next s0 x) := by
  have hXq : (0 : ℚ) < 1 / (X : ℚ) :=
    one_div_pos.mpr (by exact_mod_cast hX)
  have hpres : ∀ (l : List (Fin X × Fin S)) (acc : Fin S → Fin S → ℚ),
      0 < acc s0 (M.next s0 x) → 0 < l.foldl (fbGammaStep M g z) acc s0 (M.next s0 x) := by
    intro l
    induction l with
    | nil => intro acc h; exact h
    | cons p l ih =>
      intro acc h
      refine ih (fbGammaStep M g z acc p) ?_
      rw [fbGammaStep_apply]
      split
      · exact mul_pos hXq (hg _ _)
      · exact h
  obtain ⟨l1, l2, hsplit⟩ := List.append_of_mem (mem_ndIndexList (x, s0))
  unfold fbGamma
  rw [hsplit, List.foldl_append, List.foldl_cons]
  refine hpres l2 _ ?_
  rw [fbGammaStep_apply]
  rw [if_pos ⟨rfl, rfl⟩]
  exact mul_pos hXq (hg _ _)

/-- The forward variable stays entrywise nonnegative. -/
theorem fbAlpha_nonneg {S X : ℕ} {Z : Type} (M : FSM S X) (g : ℕ → Z → ℚ)
    (hg0 : ∀ y w, 0 ≤ g y w) (pref : List Z) (s : Fin S) :
    0 ≤ fbAlpha M g pref s := by
  unfold fbAlpha
  have key : ∀ (l : List Z) (v : Fin S → ℚ), (∀ s, 0 ≤ v s) →
      ∀ s, 0 ≤ l.foldl (fbAlphaStep M g) v s := by
    intro l
    induction l with
    | nil => intro v h s; exact h s
    | cons z2 l ih =>
      intro v h s
      refine ih (fbAlphaStep M g v z2) ?_ s
      intro s1
      unfold fbAlphaStep
      exact Finset.sum_nonneg fun s0 _ => mul_nonneg (fbGamma_nonneg M g z2 hg0 s0 s1) (h s0)
  refine key pref _ ?_ s
  intro s2
  exact one_div_nonneg.mpr (Nat.cast_nonneg S)

/-- The forward variable always has a strictly positive entry. -/
theorem fbAlpha_exists_pos {S X : ℕ} {Z : Type} (M : FSM S X) (g : ℕ → Z → ℚ)
    (hS : 0 < S) (hX : 0 < X) (hg : ∀ y w, 0 < g y w) (pref : List Z) :
    ∃ s, 0 < fbAlpha M g pref s := by
  have hg0 : ∀ y w, 0 ≤ g y w := fun y w => le_of_lt (hg y w)
  unfold fbAlpha
  have key : ∀ (l : List Z) (v : Fin S → ℚ), (∀ s, 0 ≤ v s) → (∃ s, 0 < v s) →
      ∃ s, 0 < l.foldl (fbAlphaStep M g) v s := by
    intro l
    induction l with
    | nil => intro v _ h; exact h
    | cons z2 l ih =>
      intro v hnn ⟨s0, hpos⟩
      have hstep_nn : ∀ s, 0 ≤ fbAlphaStep M g v z2 s := by
        intro s1
        exact Finset.sum_nonneg fun s2 _ => mul_nonneg (fbGamma_nonneg M g z2 hg0 s2 s1) (hnn s2)
      refine ih (fbAlphaStep M g v z2) hstep_nn ?_
      refine ⟨M.next s0 ⟨0, hX⟩, ?_⟩
      unfold fbAlphaStep
      refine Finset.sum_pos' ?_ ⟨s0, Finset.mem_univ s0, ?_⟩
      · intro s2 _
        exact mul_nonneg (fbGamma_nonneg M g z2 hg0 s2 _) (hnn s2)
      · exact mul_pos (fbGamma_edge_pos M g z2 hX hg s0 ⟨0, hX⟩) hpos
  refine key pref _ (fun _ => one_div_nonneg.mpr (Nat.cast_nonneg S)) ?_
  refine ⟨⟨0, hS⟩, ?_⟩
  exact one_div_pos.mpr (by exact_mod_cast hS)

/-- The backward variable is strictly positive everywhere (every state has
outgoing edges, and the boundary distribution is uniform). -/
theorem fbBeta_pos {S X : ℕ} {Z : Type} (M : FSM S X) (g : ℕ → Z → ℚ)
    (hS : 0 < S) (hX : 0 < X) (hg : ∀ y w, 0 < g y w) (suff : List Z) (s : Fin S) :
    0 < fbBeta M g suff s := by
  have hg0 : ∀ y w, 0 ≤ g y w := fun y w => le_of_lt (hg y w)
  induction suff generalizing s with
  | nil =>
    unfold fbBeta
    exact one_div_pos.mpr (by exact_mod_cast hS)
  | cons z2 zs ih =>
    show 0 < ∑ s1, fbGamma M g z2 s s1 * fbBeta M g zs s1
    refine Finset.sum_pos' ?_ ⟨M.next s ⟨0, hX⟩, Finset.mem_univ _, ?_⟩
    · intro s1 _
      exact mul_nonneg (fbGamma_nonneg M g z2 hg0 s s1) (le_of_lt (ih s1))
    · exact mul_pos (fbGamma_edge_pos M g z2 hX hg s ⟨0, hX⟩) (ih _)

/-- Every unnormalised posterior entry is strictly positive. -/
theorem postRow_pos {S X : ℕ} {Z : Type} (M : FSM S X) (g : ℕ → Z → ℚ)
    (hS : 0 < S) (hX : 0 < X) (hg : ∀ y w, 0 < g y w)
    (pref : List Z) (z : Z) (suff : List Z) (x : Fin X) :
    0 < postRow M g pref z suff x := by
  have hg0 : ∀ y w, 0 ≤ g y w := fun y w => le_of_lt (hg y w)
  obtain ⟨s0, hs0⟩ := fbAlpha_exists_pos M g hS hX hg pref
  unfold postRow
  refine Finset.sum_pos' ?_ ⟨s0, Finset.mem_univ s0, ?_⟩
  · intro s2 _
    exact mul_nonneg
      (mul_nonneg (fbAlpha_nonneg M g hg0 pref s2) (fbGamma_nonneg M g z hg0 s2 _))
      (le_of_lt (fbBeta_pos M g hS hX hg suff _))
  · exact mul_pos (mul_pos hs0 (fbGamma_edge_pos M g z hX hg s0 x))
      (fbBeta_pos M g hS hX hg suff _)

/-- C4: each returned posterior row of `forward_backward` sums to `1` and is
strictly positive wherever at least one trellis edge carries the input
symbol — every input symbol is carried by an edge from each state, so every
entry is positive.  (Hypotheses: nonempty alphabets, as the data-model
invariant requires, and a finite metric, embedded as a positive
likelihood.) -/
theorem forward_backward_rows {S X : ℕ} {Z : Type} (M : FSM S X) (g : ℕ → Z → ℚ)
    (hS : 0 < S) (hX : 0 < X) (hg : ∀ y w, 0 < g y w)
    (pref : List Z) (z : Z) (suff : List Z) :
    (∑ x, postNorm M g pref z suff x) = 1 ∧
      ∀ x, 0 < postNorm M g pref z suff x := by
  have hT : 0 < ∑ x2, postRow M g pref z suff x2 := by
    have : Nonempty (Fin X) := ⟨⟨0, hX⟩⟩
    refine Finset.sum_pos ?_ Finset.univ_nonempty
    intro x _
    exact postRow_pos M g hS hX hg pref z suff x
  constructor
  · unfold postNorm
    rw [← Finset.sum_div]
    exact div_self (ne_of_gt hT)
  · intro x
    exact div_pos (postRow_pos M g hS hX hg pref z suff x) hT

/-- Witness for `forward_backward_rows` on the one-state machine with the
unit likelihood and a single observation. -/
theorem forward_backward_rows_instance :
    0 < 1 ∧ 0 < 1 ∧ (∀ y w : ℕ, 0 < g1 y w) ∧
      ((∑ x, postNorm oneFSM g1 [] 0 [] x) = 1 ∧
        ∀ x, 0 < postNorm oneFSM g1 [] 0 [] x) :=
  ⟨Nat.one_pos, Nat.one_pos, fun _ _ => one_pos,
    forward_backward_rows oneFSM g1 Nat.one_pos Nat.one_pos (fun _ _ => one_pos) [] 0 []⟩
